import Mathlib

/-!
Verification of the concurrent-queue repository (SPSC / MPSC / unbounded MPMC /
bounded MPMC queues, two proxy collectors and an event-count) against its
natural-language specification.

Each C++ component is shallowly embedded as Lean definitions over explicit
states.  Pointers are node identifiers (`Nat`, with `0` playing the role of the
null pointer), heaps are functions from identifiers to node records, and the
machine words of the word-based proxy collector are naturals reduced modulo
`2 ^ 32`.  Sequential executions model single-threaded runs: a compare-and-swap
succeeds exactly when the location still holds the expected value, which in a
single-threaded run is determined by the state.  Loops from the source are
embedded with an explicit fuel argument so that every definition is total.
The event-count's no-lost-wake-up property is settled on a finite interleaving
state machine with one producer and one consumer, each atomic access of the
source being one transition.
-/

/-! # The SPSC unbounded queue (spsc_queue.cpp) -/

namespace Spsc

/-- A queue node: the `next_` link (a node id, `0` = null) and `value_`. -/
structure Node where
  next : Nat
  value : Int
deriving DecidableEq

/-- Store a node record at address `i` of a heap. -/
def hupd (h : Nat → Node) (i : Nat) (n : Node) : Nat → Node :=
  fun j => if j = i then n else h j

/-- State of `spsc_queue`: the heap of allocated nodes, the four pointers
`head_`, `first_`, `tail_copy_`, `tail_`, and the next fresh heap address
(addresses start at `1`; `0` is the null pointer). -/
structure State where
  heap : Nat → Node
  head : Nat
  first : Nat
  tail_copy : Nat
  tail : Nat
  alloc : Nat

/-- `spsc_queue::alloc_node`: first try the node cache (`first_` versus the
`tail_copy_` snapshot), then refresh `tail_copy_` from the live `tail_`, and
only if the cache is still empty allocate a fresh node from the heap.
Returns the address of the node holding `v` together with the new state. -/
def alloc_node (s : State) (v : Int) : Nat × State :=
  if s.first ≠ s.tail_copy then
    (s.first, { s with heap := hupd s.heap s.first { s.heap s.first with value := v },
                       first := (s.heap s.first).next })
  else
    let tcopy := s.tail
    let s1 : State := { s with tail_copy := tcopy }
    if s.first ≠ tcopy then
      (s.first, { s1 with heap := hupd s1.heap s.first { s1.heap s.first with value := v },
                          first := (s1.heap s.first).next })
    else
      (s1.alloc, { s1 with heap := hupd s1.heap s1.alloc { next := 0, value := v },
                           alloc := s1.alloc + 1 })

/-- `spsc_queue::enqueue`: allocate a node, clear its `next_`, publish it on
`head_->next_` and advance `head_`. -/
def enqueue (s : State) (v : Int) : State :=
  let r := alloc_node s v
  let n := r.1
  let s1 := r.2
  let s2 : State := { s1 with heap := hupd s1.heap n { s1.heap n with next := 0 } }
  let s3 : State := { s2 with heap := hupd s2.heap s2.head { s2.heap s2.head with next := n } }
  { s3 with head := n }

/-- `spsc_queue::dequeue`: read `tail_->next_`; if non-null copy its value out
and advance `tail_` (the old tail stays allocated, available to the cache),
otherwise report the queue empty. -/
def dequeue (s : State) : Option Int × State :=
  let tail_next := (s.heap s.tail).next
  if tail_next ≠ 0 then
    (some ((s.heap tail_next).value), { s with tail := tail_next })
  else
    (none, s)

/-- The freshly constructed queue: one stub node at address `1`, all four
pointers on it. -/
def initState : State :=
  { heap := fun _ => { next := 0, value := 0 },
    head := 1, first := 1, tail_copy := 1, tail := 1, alloc := 2 }

/-- Enqueue a list of values left to right. -/
def enqueueAll (s : State) (vs : List Int) : State :=
  vs.foldl enqueue s

/-- Perform `k` dequeues, collecting the results. -/
def dequeueN (s : State) : Nat → List (Option Int) × State
  | 0 => ([], s)
  | k + 1 =>
    let r := dequeue s
    let rest := dequeueN r.2 k
    (r.1 :: rest.1, rest.2)

/-- The heap after enqueueing `vs` into a fresh queue: the stub at address `1`,
the node at address `i + 2` holding `vs[i]`, each node linked to its
successor. -/
def heapAfter (vs : List Int) : Nat → Node := fun j =>
  if 1 ≤ j ∧ j ≤ vs.length + 1 then
    { next := if j = vs.length + 1 then 0 else j + 1,
      value := if j = 1 then 0 else vs.getD (j - 2) 0 }
  else { next := 0, value := 0 }

/-- The whole state after enqueueing `vs` into a fresh queue and then
dequeueing `k` times (the consumer pointer `tail_` sits at address `k + 1`). -/
def midState (vs : List Int) (k : Nat) : State :=
  { heap := heapAfter vs, head := vs.length + 1, first := 1, tail_copy := 1,
    tail := k + 1, alloc := vs.length + 2 }

theorem heapAfter_nil : heapAfter [] = fun _ => { next := 0, value := 0 } := by
  funext j
  simp only [heapAfter, List.length_nil]
  by_cases hj : 1 ≤ j ∧ j ≤ 0 + 1
  · have hj1 : j = 1 := by omega
    subst hj1
    simp
  · simp [hj]

theorem initState_eq : initState = midState [] 0 := by
  rw [midState, heapAfter_nil]
  rfl

theorem heapAfter_append (vs : List Int) (v : Int) :
    hupd (hupd (hupd (heapAfter vs) (vs.length + 2) { next := 0, value := v })
            (vs.length + 2) { next := 0, value := v })
        (vs.length + 1)
        { next := vs.length + 2, value := (heapAfter vs (vs.length + 1)).value } =
      heapAfter (vs ++ [v]) := by
  funext j
  simp only [hupd, heapAfter, List.length_append, List.length_singleton]
  rcases Nat.lt_trichotomy j (vs.length + 1) with hj | hj | hj
  · have hne1 : j ≠ vs.length + 1 := by omega
    have hne2 : j ≠ vs.length + 2 := by omega
    simp only [hne1, hne2, if_false]
    by_cases hin : 1 ≤ j ∧ j ≤ vs.length + 1
    · have hin2 : 1 ≤ j ∧ j ≤ vs.length + 1 + 1 := by omega
      have hne3 : j ≠ vs.length + 1 + 1 := by omega
      simp only [hin, hin2, if_true, hne1, hne3, if_false]
      by_cases hj1 : j = 1
      · simp [hj1]
      · simp only [hj1, if_false]
        rw [List.getD_append _ _ _ _ (by omega)]
    · have hin2 : ¬(1 ≤ j ∧ j ≤ vs.length + 1 + 1) := by omega
      simp [hin, hin2]
  · subst hj
    have hin : 1 ≤ vs.length + 1 ∧ vs.length + 1 ≤ vs.length + 1 := ⟨by omega, le_refl _⟩
    have hin2 : 1 ≤ vs.length + 1 ∧ vs.length + 1 ≤ vs.length + 1 + 1 := by omega
    have hne3 : vs.length + 1 ≠ vs.length + 1 + 1 := by omega
    simp only [if_pos rfl, hin, hin2, if_true, hne3, if_false]
    refine Node.mk.injEq .. ▸ ⟨rfl, ?_⟩
    by_cases h0 : vs.length + 1 = 1
    · simp [h0]
    · simp only [if_pos rfl, h0, if_false, hin, if_true]
      rw [List.getD_append _ _ _ _ (by omega)]
      simp
  · by_cases hA : j = vs.length + 2
    · subst hA
      have hne1 : vs.length + 2 ≠ vs.length + 1 := by omega
      have hin2 : 1 ≤ vs.length + 2 ∧ vs.length + 2 ≤ vs.length + 1 + 1 := by omega
      have hne0 : vs.length + 2 ≠ 1 := by omega
      have heq : vs.length + 2 = vs.length + 1 + 1 := rfl
      simp only [hne1, if_false, if_pos rfl, hin2, if_true, hne0, heq]
      rw [List.getD_append_right _ _ _ _ (by omega)]
      simp
    · have hne1 : j ≠ vs.length + 1 := by omega
      have hin : ¬(1 ≤ j ∧ j ≤ vs.length + 1) := by omega
      have hin2 : ¬(1 ≤ j ∧ j ≤ vs.length + 1 + 1) := by omega
      simp [hA, hne1, hin, hin2]

theorem enqueue_midState (vs : List Int) (v : Int) :
    enqueue (midState vs 0) v = midState (vs ++ [v]) 0 := by
  have hne : ¬((1 : Nat) ≠ 1) := by omega
  have hAA : vs.length + 2 = vs.length + 2 := rfl
  have hHA : ¬(vs.length + 1 = vs.length + 2) := by omega
  simp only [enqueue, alloc_node, midState, hne, if_false]
  simp only [hupd, hAA, if_true, hHA, if_false]
  rw [State.mk.injEq]
  refine ⟨?_, by simp, rfl, rfl, rfl, by simp⟩
  rw [← heapAfter_append vs v]

theorem enqueueAll_midState (ws : List Int) : ∀ vs : List Int,
    enqueueAll (midState vs 0) ws = midState (vs ++ ws) 0 := by
  induction ws with
  | nil => intro vs; simp [enqueueAll]
  | cons w ws ih =>
    intro vs
    have h1 : enqueueAll (midState vs 0) (w :: ws) = enqueueAll (enqueue (midState vs 0) w) ws := rfl
    rw [h1, enqueue_midState, ih, List.append_assoc]
    rfl

theorem enqueueAll_initState (vs : List Int) :
    enqueueAll initState vs = midState vs 0 := by
  rw [initState_eq, enqueueAll_midState]
  simp

theorem dequeue_midState (vs : List Int) (k : Nat) (hk : k < vs.length) :
    dequeue (midState vs k) = (some (vs.getD k 0), midState vs (k + 1)) := by
  simp only [dequeue, midState, heapAfter]
  have h1 : 1 ≤ k + 1 ∧ k + 1 ≤ vs.length + 1 := by omega
  have h2 : ¬(k + 1 = vs.length + 1) := by omega
  simp only [h1, if_true, h2, if_false, ne_eq]
  have h3 : ¬(k + 1 + 1 = 0) := by omega
  have h4 : 1 ≤ k + 1 + 1 ∧ k + 1 + 1 ≤ vs.length + 1 := by omega
  have h5 : ¬(k + 1 + 1 = 1) := by omega
  simp [h3, h4, h5]

theorem dequeue_midState_end (vs : List Int) :
    dequeue (midState vs vs.length) = (none, midState vs vs.length) := by
  simp only [dequeue, midState, heapAfter]
  have h1 : 1 ≤ vs.length + 1 ∧ vs.length + 1 ≤ vs.length + 1 := ⟨by omega, le_refl _⟩
  simp [h1]

theorem dequeueN_midState (vs : List Int) : ∀ n k, n = vs.length - k → k ≤ vs.length →
    dequeueN (midState vs k) n = ((vs.drop k).map some, midState vs vs.length) := by
  intro n
  induction n with
  | zero =>
    intro k h1 h2
    have hk : k = vs.length := by omega
    subst hk
    simp [dequeueN, List.drop_length]
  | succ n ih =>
    intro k h1 h2
    have hk : k < vs.length := by omega
    simp only [dequeueN, dequeue_midState vs k hk]
    rw [ih (k + 1) (by omega) (by omega)]
    rw [List.getD_eq_getElem vs 0 hk]
    have hmap : k < (vs.map some).length := by simpa using hk
    rw [List.map_drop, List.map_drop, List.drop_eq_getElem_cons hmap]
    simp

theorem dequeueN_split (a : Nat) : ∀ (s : State) (b : Nat),
    dequeueN s (a + b) =
      ((dequeueN s a).1 ++ (dequeueN (dequeueN s a).2 b).1,
        (dequeueN (dequeueN s a).2 b).2) := by
  induction a with
  | zero => intro s b; simp [dequeueN]
  | succ a ih =>
    intro s b
    have h1 : a + 1 + b = (a + b) + 1 := by omega
    rw [h1]
    simp only [dequeueN]
    rw [ih]
    simp

/-- **C7.** For every finite sequence of values enqueued single-threadedly into
a fresh SPSC queue, the same number of subsequent dequeues returns exactly those
values in enqueue order (each call succeeding), and one further dequeue on the
now-empty queue fails: the results of `|vs| + 1` dequeues after enqueueing `vs`
are `map some vs` followed by one `none`. -/
theorem spsc_roundtrip (vs : List Int) :
    (dequeueN (enqueueAll initState vs) (vs.length + 1)).1 = vs.map some ++ [none] := by
  rw [enqueueAll_initState, dequeueN_split vs.length (midState vs 0) 1,
    dequeueN_midState vs vs.length 0 (by omega) (by omega)]
  simp [dequeueN, dequeue_midState_end]

/-- Witness for C7: the concrete round-trip of the spec's scenario 1,
enqueueing `0,1,2,3,4` and dequeueing six times. -/
theorem spsc_roundtrip_witness :
    (dequeueN (enqueueAll initState [0, 1, 2, 3, 4]) 6).1 =
      [some 0, some 1, some 2, some 3, some 4, none] := by
  have h := spsc_roundtrip [0, 1, 2, 3, 4]
  simpa using h

/-- **C8.** `spsc_queue::alloc_node` reuses a cached node (the one at `first_`,
with no heap allocation) when `first_` differs from the `tail_copy_` snapshot;
when they are equal it refreshes `tail_copy_` from the live `tail_` atomic and
reuses a cached node exactly when the refreshed snapshot differs from `first_`;
it heap-allocates a fresh node only when `first_` still equals the refreshed
snapshot. -/
theorem alloc_node_cache_protocol (s : State) (v : Int) :
    (s.first ≠ s.tail_copy →
      (alloc_node s v).1 = s.first ∧ (alloc_node s v).2.alloc = s.alloc ∧
        (alloc_node s v).2.tail_copy = s.tail_copy) ∧
    (s.first = s.tail_copy →
      (alloc_node s v).2.tail_copy = s.tail ∧
      (s.first ≠ s.tail →
        (alloc_node s v).1 = s.first ∧ (alloc_node s v).2.alloc = s.alloc) ∧
      (s.first = s.tail →
        (alloc_node s v).1 = s.alloc ∧ (alloc_node s v).2.alloc = s.alloc + 1)) := by
  constructor
  · intro h
    simp [alloc_node, h]
  · intro h
    by_cases h2 : s.first = s.tail
    · have h3 : s.tail_copy = s.tail := h ▸ h2
      refine ⟨?_, fun h4 => absurd h2 h4, fun _ => ?_⟩ <;> simp [alloc_node, h, h2, h3]
    · have h3 : ¬(s.tail_copy = s.tail) := by rw [← h]; exact h2
      refine ⟨?_, fun _ => ?_, fun h4 => absurd h4 h2⟩ <;> simp [alloc_node, h, h2, h3]

/-- Concrete states exercising the three branches of `alloc_node`. -/
def cacheSt : State := { initState with first := 3, heap := heapAfter [7, 8] }

def refreshSt : State := { initState with tail := 3, heap := heapAfter [7, 8] }

/-- Witness for C8: all three branches at concrete states — a cache hit when
`first_ ≠ tail_copy_`, a cache hit after refreshing `tail_copy_` from `tail_`,
and a heap allocation from the fresh initial state. -/
theorem alloc_node_cache_protocol_witness :
    ((alloc_node cacheSt 5).1 = cacheSt.first ∧ (alloc_node cacheSt 5).2.alloc = cacheSt.alloc ∧
      (alloc_node cacheSt 5).2.tail_copy = cacheSt.tail_copy) ∧
    ((alloc_node refreshSt 5).2.tail_copy = refreshSt.tail ∧
      (alloc_node refreshSt 5).1 = refreshSt.first ∧
      (alloc_node refreshSt 5).2.alloc = refreshSt.alloc) ∧
    ((alloc_node initState 5).2.tail_copy = initState.tail ∧
      (alloc_node initState 5).1 = initState.alloc ∧
      (alloc_node initState 5).2.alloc = initState.alloc + 1) := by
  refine ⟨(alloc_node_cache_protocol cacheSt 5).1 (by decide), ?_, ?_⟩
  · have h := (alloc_node_cache_protocol refreshSt 5).2 (by decide)
    exact ⟨h.1, h.2.1 (by decide)⟩
  · have h := (alloc_node_cache_protocol initState 5).2 (by decide)
    exact ⟨h.1, h.2.2 (by decide)⟩

end Spsc

/-! # The MPSC unbounded queue (mpsc_queue.cpp) -/

namespace Mpsc

/-- A node of `mpsc_queue`: `next_` (node id, `0` = null) and `value_`. -/
structure Node where
  next : Nat
  value : Int
deriving DecidableEq

/-- Store a node record at address `i` of a heap. -/
def hupd (h : Nat → Node) (i : Nat) (n : Node) : Nat → Node :=
  fun j => if j = i then n else h j

/-- State of `mpsc_queue`: the heap, `head_`, `tail_`, the list of node
addresses handed to `free` so far (newest first), and the next fresh
address. -/
structure MState where
  heap : Nat → Node
  head : Nat
  tail : Nat
  freed : List Nat
  alloc : Nat

/-- `mpsc_queue::enqueue`: allocate a node holding `value`, exchange it into
`head_` obtaining the previous head `p`, then publish the link by storing the
new node into `p->next_`. -/
def enqueue (s : MState) (value : Int) : MState :=
  let n := s.alloc
  let s1 : MState :=
    { s with heap := hupd s.heap n { next := 0, value := value }, alloc := s.alloc + 1 }
  let p := s1.head
  let s2 : MState := { s1 with head := n }
  { s2 with heap := hupd s2.heap p { s2.heap p with next := n } }

/-- `mpsc_queue::dequeue`: read `t = tail_` and `n = t->next_`; when `n` is
null report the queue empty, otherwise store `n` into `tail_`, copy `n`'s
value to the out parameter, `free` the old tail node `t`, and succeed. -/
def dequeue (s : MState) : Option Int × MState :=
  let t := s.tail
  let n := (s.heap t).next
  if n ≠ 0 then
    (some ((s.heap n).value), { s with tail := n, freed := t :: s.freed })
  else
    (none, s)

/-- **C6.** `mpsc_queue::dequeue`: if `tail_->next_` is null the call fails and
leaves the state unchanged; otherwise it advances `tail_` to that next node,
copies that node's value into the out parameter, frees the old tail node, and
succeeds — the heap and `head_` are untouched. -/
theorem mpsc_dequeue_spec (s : MState) :
    ((s.heap s.tail).next = 0 → dequeue s = (none, s)) ∧
    ((s.heap s.tail).next ≠ 0 →
      (dequeue s).1 = some ((s.heap ((s.heap s.tail).next)).value) ∧
      (dequeue s).2.tail = (s.heap s.tail).next ∧
      (dequeue s).2.freed = s.tail :: s.freed ∧
      (dequeue s).2.heap = s.heap ∧ (dequeue s).2.head = s.head) := by
  constructor
  · intro h
    simp [dequeue, h]
  · intro h
    simp [dequeue, h]

/-- A two-node instance: the stub at address `1` linking to a node holding
`9`. -/
def exMpsc : MState :=
  { heap := fun j => if j = 1 then { next := 2, value := 0 }
            else if j = 2 then { next := 0, value := 9 }
            else { next := 0, value := 0 },
    head := 2, tail := 1, freed := [], alloc := 3 }

/-- The fresh `mpsc_queue`: only the stub, whose `next_` is null. -/
def emptyMpsc : MState :=
  { heap := fun _ => { next := 0, value := 0 },
    head := 1, tail := 1, freed := [], alloc := 2 }

/-- Witness for C6: both branches at concrete states — the empty queue fails
and is unchanged; the two-node queue yields `9`, advances `tail_` to node `2`
and frees node `1`. -/
theorem mpsc_dequeue_spec_witness :
    dequeue emptyMpsc = (none, emptyMpsc) ∧
    ((dequeue exMpsc).1 = some 9 ∧ (dequeue exMpsc).2.tail = 2 ∧
      (dequeue exMpsc).2.freed = [1] ∧ (dequeue exMpsc).2.heap = exMpsc.heap ∧
      (dequeue exMpsc).2.head = exMpsc.head) := by
  constructor
  · exact (mpsc_dequeue_spec emptyMpsc).1 rfl
  · have h := (mpsc_dequeue_spec exMpsc).2 (by decide)
    exact h

end Mpsc

/-! # The MPMC unbounded queue (mpmc_unbounded_queue.cpp, class `mpmc_queue`) -/

namespace MpmcU

/-- A node of `mpmc_queue`: `next_` (node id, `0` = null) and `value_`. -/
structure Node where
  next : Nat
  value : Int
deriving DecidableEq

/-- A proxy-collector operation that a queue operation could perform.  The
instrumented state records every such call the embedded code makes, so that
the presence or absence of collector interaction is observable. -/
inductive PcOp where
  | acquireOp : PcOp
  | releaseOp : PcOp
  | deferOp : Nat → PcOp
deriving DecidableEq

/-- State of `mpmc_queue`, instrumented: the heap, `head_`, `tail_`, the nodes
freed (`delete`d) directly so far, and the proxy-collector calls performed so
far. -/
structure QState where
  heap : Nat → Node
  head : Nat
  tail : Nat
  freed : List Nat
  pcalls : List PcOp

/-- The CAS loop of `mpmc_queue::dequeue`, `t` being the local expected tail.
Reads `n = t->next_`; a null `n` means empty; otherwise the value is read and
`compare_exchange_weak(t, n)` attempted — on failure the expected value is
reloaded from `tail_` and the loop repeats.  The body performs no `free`/
`delete` and no proxy-collector call (source comment: "can't free t here,
other consumer may still use the node"). -/
def dequeueLoop (s : QState) : Nat → Nat → Option (Option Int × QState)
  | 0, _ => none
  | fuel + 1, t =>
    let n := (s.heap t).next
    if n = 0 then some (none, s)
    else
      if s.tail = t then some (some ((s.heap n).value), { s with tail := n })
      else dequeueLoop s fuel s.tail

/-- `mpmc_queue::dequeue`, started from the loaded `tail_`. -/
def dequeue (s : QState) (fuel : Nat) : Option (Option Int × QState) :=
  dequeueLoop s fuel s.tail

/-- A one-element instance: stub at address `1` linking to a node holding `7`,
no collector call recorded yet. -/
def exQ : QState :=
  { heap := fun j => if j = 1 then { next := 2, value := 0 }
            else if j = 2 then { next := 0, value := 7 }
            else { next := 0, value := 0 },
    head := 2, tail := 1, freed := [], pcalls := [] }

/-- The state after dequeuing from `exQ`. -/
def exQ2 : QState := { exQ with tail := 2 }

/-- Counterexample to **C1** as stated: this `dequeue` succeeds (it returns
`7` and retires the old tail, node `1`), yet the operation performs no
proxy-collector call at all — it neither acquires a collector epoch before
reading the queue nor posts the retired old tail as deferred-free after its
successful CAS.  (The part of the claim that holds: node `1` is indeed not
freed directly.) -/
theorem mpmc_dequeue_no_collector_cex :
    dequeue exQ 1 = some (some 7, exQ2) ∧
    PcOp.acquireOp ∉ exQ2.pcalls ∧ PcOp.deferOp 1 ∉ exQ2.pcalls ∧
    1 ∉ exQ2.freed := by
  refine ⟨rfl, ?_, ?_, ?_⟩ <;> simp [exQ2, exQ]

/-- **C1, amended.**  For every completed call of
`mpmc_queue::dequeue` (successful or not), the operation does not free the old
tail node directly, and it performs no proxy-collector operation either: the
freed list, the recorded collector calls, the heap and `head_` are exactly
those of the pre-state.  Reclamation of the retired node simply does not
happen in this implementation. -/
theorem mpmc_dequeue_no_reclamation (s : QState) (fuel : Nat)
    (r : Option Int × QState) (h : dequeue s fuel = some r) :
    r.2.freed = s.freed ∧ r.2.pcalls = s.pcalls ∧
    r.2.heap = s.heap ∧ r.2.head = s.head := by
  rw [dequeue] at h
  induction fuel generalizing r with
  | zero => exact absurd h (by simp [dequeueLoop])
  | succ fuel ih =>
    rw [dequeueLoop] at h
    by_cases h1 : (s.heap s.tail).next = 0
    · simp only [h1, if_true, if_pos rfl, Option.some.injEq] at h
      rw [← h]
      exact ⟨rfl, rfl, rfl, rfl⟩
    · simp only [h1, if_false, if_pos rfl, ite_true, Option.some.injEq] at h
      rw [← h]
      exact ⟨rfl, rfl, rfl, rfl⟩

/-- Witness for the amended C1: the concrete successful dequeue from `exQ`
changes neither the freed list nor the collector-call log. -/
theorem mpmc_dequeue_no_reclamation_witness :
    (some 7, exQ2).2.freed = exQ.freed ∧ (some 7, exQ2).2.pcalls = exQ.pcalls ∧
    (some 7, exQ2).2.heap = exQ.heap ∧ (some 7, exQ2).2.head = exQ.head :=
  mpmc_dequeue_no_reclamation exQ 1 (some 7, exQ2) rfl

end MpmcU

/-! # The bounded MPMC queue (mpmc_unbounded_queue.cpp, `mpmc_bounded_queue`) -/

namespace Bounded

/-- A ring cell: `sequence_` and `data_`. -/
structure Cell where
  sequence : Nat
  data : Int
deriving DecidableEq

/-- Store a cell at index `i` of the buffer. -/
def cupd (c : Nat → Cell) (i : Nat) (x : Cell) : Nat → Cell :=
  fun j => if j = i then x else c j

/-- State of `mpmc_bounded_queue` with `buffer_size = N`: the cell buffer
(only indices `< N` are ever addressed) and the two position counters.  The
`size_t` counters are modelled as unbounded naturals: each is only ever
incremented by one and no claim exercises the wrap-around of a 64-bit counter
after `2 ^ 64` operations. -/
structure BState where
  cells : Nat → Cell
  enqueue_pos : Nat
  dequeue_pos : Nat

/-- The buffer index `pos & buffer_mask_` is written `pos % N` in this
embedding; for the power-of-two sizes the `static_assert` admits the two
agree. -/
theorem mask_eq_mod (k pos : Nat) : pos &&& (2 ^ k - 1) = pos % 2 ^ k :=
  Nat.and_pow_two_sub_one_eq_mod pos k

/-- Outcome of one iteration of the `enqueue` loop. -/
inductive EnqRes where
  | done : BState → EnqRes
  | full : EnqRes
  | again : Nat → EnqRes

/-- Outcome of one iteration of the `dequeue` loop. -/
inductive DeqRes where
  | done : Int → BState → DeqRes
  | empty : DeqRes
  | again : Nat → DeqRes

/-- One iteration of `mpmc_bounded_queue::enqueue` at ticket `pos`: load
`seq = buffer_[pos & mask].sequence_`, compute
`dif = (intptr_t)seq - (intptr_t)pos` and branch on its sign.  `dif = 0`
attempts `CAS(enqueue_pos_, pos, pos + 1)`; success (`done`) folds in the code
after the loop: `cell->data_ = data; cell->sequence_.store(pos + 1)`; a failed
CAS leaves the loop running with the observed counter value.  `dif < 0`
returns false (`full`); `dif > 0` reloads `enqueue_pos_` and retries. -/
def enqueueStep (N : Nat) (s : BState) (data : Int) (pos : Nat) : EnqRes :=
  let seq := (s.cells (pos % N)).sequence
  let dif : Int := (seq : Int) - (pos : Int)
  if dif = 0 then
    if s.enqueue_pos = pos then
      EnqRes.done
        { s with
          enqueue_pos := pos + 1,
          cells := cupd s.cells (pos % N) { sequence := pos + 1, data := data } }
    else EnqRes.again s.enqueue_pos
  else if dif < 0 then EnqRes.full
  else EnqRes.again s.enqueue_pos

/-- One iteration of `mpmc_bounded_queue::dequeue` at ticket `pos`:
`dif = (intptr_t)seq - (intptr_t)(pos + 1)`; `dif = 0` attempts
`CAS(dequeue_pos_, pos, pos + 1)` and on success copies the data out and
stores `sequence_ = pos + buffer_mask_ + 1`; `dif < 0` returns false
(`empty`); `dif > 0` reloads `dequeue_pos_` and retries. -/
def dequeueStep (N : Nat) (s : BState) (pos : Nat) : DeqRes :=
  let seq := (s.cells (pos % N)).sequence
  let dif : Int := (seq : Int) - ((pos : Int) + 1)
  if dif = 0 then
    if s.dequeue_pos = pos then
      DeqRes.done ((s.cells (pos % N)).data)
        { s with
          dequeue_pos := pos + 1,
          cells := cupd s.cells (pos % N)
            { s.cells (pos % N) with sequence := pos + (N - 1) + 1 } }
    else DeqRes.again s.dequeue_pos
  else if dif < 0 then DeqRes.empty
  else DeqRes.again s.dequeue_pos

/-- The `enqueue` loop with fuel. -/
def enqueueLoop (N : Nat) (data : Int) : Nat → BState → Nat → Option (Bool × BState)
  | 0, _, _ => none
  | fuel + 1, s, pos =>
    match enqueueStep N s data pos with
    | EnqRes.done s1 => some (true, s1)
    | EnqRes.full => some (false, s)
    | EnqRes.again pos1 => enqueueLoop N data fuel s pos1

/-- `mpmc_bounded_queue::enqueue`, starting from the loaded `enqueue_pos_`. -/
def enqueue (N : Nat) (s : BState) (data : Int) (fuel : Nat) : Option (Bool × BState) :=
  enqueueLoop N data fuel s s.enqueue_pos

/-- The `dequeue` loop with fuel. -/
def dequeueLoop (N : Nat) : Nat → BState → Nat → Option (Option Int × BState)
  | 0, _, _ => none
  | fuel + 1, s, pos =>
    match dequeueStep N s pos with
    | DeqRes.done v s1 => some (some v, s1)
    | DeqRes.empty => some (none, s)
    | DeqRes.again pos1 => dequeueLoop N fuel s pos1

/-- `mpmc_bounded_queue::dequeue`, starting from the loaded `dequeue_pos_`. -/
def dequeue (N : Nat) (s : BState) (fuel : Nat) : Option (Option Int × BState) :=
  dequeueLoop N fuel s s.dequeue_pos

/-- The freshly constructed queue: `sequence_[i] = i`, both counters `0`.
(The capacity argument is kept for uniformity with the operations.) -/
def freshB (_capacity : Nat) : BState :=
  { cells := fun i => { sequence := i, data := 0 }, enqueue_pos := 0, dequeue_pos := 0 }

/-- States reachable from the fresh queue by completed (sequential) enqueue
and dequeue calls. -/
inductive Reach (N : Nat) : BState → Prop where
  | init : Reach N (freshB N)
  | enq : ∀ {s s1 : BState} {d : Int} {fuel : Nat} {b : Bool},
      Reach N s → enqueue N s d fuel = some (b, s1) → Reach N s1
  | deq : ∀ {s s1 : BState} {r : Option Int} {fuel : Nat},
      Reach N s → dequeue N s fuel = some (r, s1) → Reach N s1

/-- **C2.** The three-way cell protocol of the bounded queue: an enqueue whose
cell sequence equals its ticket `pos` CASes `enqueue_pos_` from `pos` to
`pos + 1`, writes the data and publishes `sequence_ = pos + 1`; an enqueue
whose cell sequence exceeds `pos` retries with the reloaded `enqueue_pos_`; a
dequeue whose cell sequence equals `pos + 1` CASes `dequeue_pos_` from `pos`
to `pos + 1`, copies the data out and publishes `sequence_ = pos + N`. -/
theorem bounded_cell_protocol (N : Nat) (hN : 1 ≤ N) (s : BState) (data : Int) (pos : Nat) :
    ((s.cells (pos % N)).sequence = pos → s.enqueue_pos = pos →
      enqueueStep N s data pos =
        EnqRes.done
          { s with
            enqueue_pos := pos + 1,
            cells := cupd s.cells (pos % N) { sequence := pos + 1, data := data } }) ∧
    (pos < (s.cells (pos % N)).sequence →
      enqueueStep N s data pos = EnqRes.again s.enqueue_pos) ∧
    ((s.cells (pos % N)).sequence = pos + 1 → s.dequeue_pos = pos →
      dequeueStep N s pos =
        DeqRes.done ((s.cells (pos % N)).data)
          { s with
            dequeue_pos := pos + 1,
            cells := cupd s.cells (pos % N)
              { s.cells (pos % N) with sequence := pos + N } }) := by
  refine ⟨fun h1 h2 => ?_, fun h1 => ?_, fun h1 h2 => ?_⟩
  · have hd : ((s.cells (pos % N)).sequence : Int) - (pos : Int) = 0 := by
      rw [h1]; omega
    simp [enqueueStep, hd, h2]
  · have hd0 : ¬(((s.cells (pos % N)).sequence : Int) - (pos : Int) = 0) := by
      omega
    have hdneg : ¬(((s.cells (pos % N)).sequence : Int) - (pos : Int) < 0) := by
      omega
    simp [enqueueStep, hd0, hdneg]
  · have hd : ((s.cells (pos % N)).sequence : Int) - ((pos : Int) + 1) = 0 := by
      rw [h1]; push_cast; omega
    have hNs : pos + (N - 1) + 1 = pos + N := by omega
    simp [dequeueStep, hd, h2, hNs]

/-- The unique ticket `t` with `d ≤ t < d + N` and `t % N = i` (for `i < N`):
the next ticket that will address cell `i`, the dequeue counter standing at
`d`. -/
def ticket (d N i : Nat) : Nat := d + (i + N - d % N) % N

theorem ticket_le (d N i : Nat) : d ≤ ticket d N i := Nat.le_add_right _ _

theorem ticket_lt (d N i : Nat) (hN : 0 < N) : ticket d N i < d + N :=
  Nat.add_lt_add_left (Nat.mod_lt _ hN) d

theorem ticket_mod (d N i : Nat) (hN : 0 < N) (hi : i < N) : ticket d N i % N = i := by
  have ha : d % N < N := Nat.mod_lt _ hN
  have hdm := Nat.div_add_mod d N
  unfold ticket
  by_cases hia : d % N ≤ i
  · have h1 : i + N - d % N = (i - d % N) + N := by omega
    rw [h1, Nat.add_mod_right, Nat.mod_eq_of_lt (show i - d % N < N by omega)]
    have h2 : d + (i - d % N) = i + N * (d / N) := by omega
    rw [h2, Nat.mul_comm N (d / N), Nat.add_mul_mod_self_right, Nat.mod_eq_of_lt hi]
  · have h1 : i + N - d % N < N := by omega
    rw [Nat.mod_eq_of_lt h1]
    have h2 : d + (i + N - d % N) = i + N * (d / N) + N := by omega
    rw [h2, Nat.add_mod_right, Nat.mul_comm N (d / N), Nat.add_mul_mod_self_right,
      Nat.mod_eq_of_lt hi]

/-- Two numbers in a window of width `N` with the same residue are equal. -/
theorem window_mod_inj {N d a b : Nat} (ha1 : d ≤ a) (ha2 : a < d + N)
    (hb1 : d ≤ b) (hb2 : b < d + N) (hab : a % N = b % N) : a = b := by
  rcases Nat.le_total a b with h | h
  · have hd : N ∣ b - a := (Nat.modEq_iff_dvd' h).mp hab
    rcases Nat.eq_zero_or_pos (b - a) with h0 | h0
    · omega
    · have := Nat.le_of_dvd h0 hd
      omega
  · have hd : N ∣ a - b := (Nat.modEq_iff_dvd' h).mp hab.symm
    rcases Nat.eq_zero_or_pos (a - b) with h0 | h0
    · omega
    · have := Nat.le_of_dvd h0 hd
      omega

theorem ticket_unique {d N i t : Nat} (hN : 0 < N) (hi : i < N) (h1 : d ≤ t)
    (h2 : t < d + N) (h3 : t % N = i) : t = ticket d N i :=
  window_mod_inj h1 h2 (ticket_le d N i) (ticket_lt d N i hN)
    (by rw [h3, ticket_mod d N i hN hi])

/-- The sequential invariant of the bounded queue: the counters are at most
`N` apart, and each cell's sequence is the next ticket addressing that cell,
plus one when that ticket's enqueue has already happened (the item is
pending). -/
def Inv (N : Nat) (s : BState) : Prop :=
  s.dequeue_pos ≤ s.enqueue_pos ∧ s.enqueue_pos ≤ s.dequeue_pos + N ∧
  ∀ i, i < N →
    (s.cells i).sequence =
      if ticket s.dequeue_pos N i < s.enqueue_pos
      then ticket s.dequeue_pos N i + 1 else ticket s.dequeue_pos N i

/-- Under the invariant, a (sequential) enqueue call decides in its first
iteration: it commits the cell at the current ticket when the queue is not
full, and returns false leaving the state untouched when it is full. -/
theorem enqueue_char (N : Nat) (hN : 2 ≤ N) (s : BState) (hInv : Inv N s)
    (data : Int) (fuel : Nat) :
    (s.enqueue_pos < s.dequeue_pos + N →
      enqueue N s data (fuel + 1) =
        some (true,
          { s with
            enqueue_pos := s.enqueue_pos + 1,
            cells := cupd s.cells (s.enqueue_pos % N)
              { sequence := s.enqueue_pos + 1, data := data } })) ∧
    (s.enqueue_pos = s.dequeue_pos + N →
      enqueue N s data (fuel + 1) = some (false, s)) := by
  obtain ⟨hde, hed, hcells⟩ := hInv
  have hN0 : 0 < N := by omega
  constructor
  · intro hlt
    have hmod : s.enqueue_pos % N < N := Nat.mod_lt _ hN0
    have ht : s.enqueue_pos = ticket s.dequeue_pos N (s.enqueue_pos % N) :=
      ticket_unique hN0 hmod hde hlt rfl
    have hseq : (s.cells (s.enqueue_pos % N)).sequence = s.enqueue_pos := by
      rw [hcells _ hmod, ← ht, if_neg (lt_irrefl _)]
    rw [enqueue, enqueueLoop, enqueueStep]
    simp only [hseq, sub_self, if_pos rfl, ite_true]
  · intro heq
    have hmod : s.enqueue_pos % N < N := Nat.mod_lt _ hN0
    have hmod2 : s.enqueue_pos % N = s.dequeue_pos % N := by
      rw [heq, Nat.add_mod_right]
    have ht : s.dequeue_pos = ticket s.dequeue_pos N (s.enqueue_pos % N) :=
      ticket_unique hN0 hmod (le_refl _) (by omega) hmod2.symm
    have hseq : (s.cells (s.enqueue_pos % N)).sequence = s.dequeue_pos + 1 := by
      rw [hcells _ hmod, ← ht, if_pos (by omega)]
    rw [enqueue, enqueueLoop, enqueueStep]
    have hd0 : ¬((((s.cells (s.enqueue_pos % N)).sequence : Int) - (s.enqueue_pos : Int)) = 0) := by
      rw [hseq]; push_cast; omega
    have hdneg : (((s.cells (s.enqueue_pos % N)).sequence : Int) - (s.enqueue_pos : Int)) < 0 := by
      rw [hseq]; push_cast; omega
    simp only [hd0, if_false, hdneg, if_true, ite_true, ite_false]

/-- Under the invariant, a (sequential) dequeue call decides in its first
iteration: it takes the pending item at the current ticket when the queue is
non-empty, and returns false leaving the state untouched when it is empty. -/
theorem dequeue_char (N : Nat) (hN : 2 ≤ N) (s : BState) (hInv : Inv N s) (fuel : Nat) :
    (s.dequeue_pos < s.enqueue_pos →
      dequeue N s (fuel + 1) =
        some (some ((s.cells (s.dequeue_pos % N)).data),
          { s with
            dequeue_pos := s.dequeue_pos + 1,
            cells := cupd s.cells (s.dequeue_pos % N)
              { s.cells (s.dequeue_pos % N) with
                sequence := s.dequeue_pos + (N - 1) + 1 } })) ∧
    (s.dequeue_pos = s.enqueue_pos →
      dequeue N s (fuel + 1) = some (none, s)) := by
  obtain ⟨hde, hed, hcells⟩ := hInv
  have hN0 : 0 < N := by omega
  have hmod : s.dequeue_pos % N < N := Nat.mod_lt _ hN0
  have ht : s.dequeue_pos = ticket s.dequeue_pos N (s.dequeue_pos % N) :=
    ticket_unique hN0 hmod (le_refl _) (by omega) rfl
  constructor
  · intro hlt
    have hseq : (s.cells (s.dequeue_pos % N)).sequence = s.dequeue_pos + 1 := by
      rw [hcells _ hmod, ← ht, if_pos hlt]
    rw [dequeue, dequeueLoop, dequeueStep]
    have hd : (((s.cells (s.dequeue_pos % N)).sequence : Int) - ((s.dequeue_pos : Int) + 1)) = 0 := by
      rw [hseq]; push_cast; omega
    simp only [hd, if_pos rfl, ite_true]
  · intro heq
    have hseq : (s.cells (s.dequeue_pos % N)).sequence = s.dequeue_pos := by
      rw [hcells _ hmod, ← ht, if_neg (by omega)]
    rw [dequeue, dequeueLoop, dequeueStep]
    have hd0 : ¬((((s.cells (s.dequeue_pos % N)).sequence : Int) - ((s.dequeue_pos : Int) + 1)) = 0) := by
      rw [hseq]; omega
    have hdneg : (((s.cells (s.dequeue_pos % N)).sequence : Int) - ((s.dequeue_pos : Int) + 1)) < 0 := by
      rw [hseq]; omega
    simp only [hd0, if_false, hdneg, if_true, ite_true, ite_false]

theorem enqueue_preserves (N : Nat) (hN : 2 ≤ N) {s s1 : BState} {d : Int}
    {fuel : Nat} {b : Bool} (hInv : Inv N s)
    (h : enqueue N s d fuel = some (b, s1)) : Inv N s1 := by
  obtain ⟨hde, hed, hcells⟩ := hInv
  have hN0 : 0 < N := by omega
  cases fuel with
  | zero => exact absurd h (by simp [enqueue, enqueueLoop])
  | succ fuel =>
    rcases Nat.lt_or_ge s.enqueue_pos (s.dequeue_pos + N) with hlt | hge
    · rw [(enqueue_char N hN s ⟨hde, hed, hcells⟩ d fuel).1 hlt] at h
      simp only [Option.some.injEq, Prod.mk.injEq] at h
      obtain ⟨-, h2⟩ := h
      subst h2
      refine ⟨?_, ?_, fun i hi => ?_⟩ <;> dsimp only
      · omega
      · omega
      · by_cases hie : i = s.enqueue_pos % N
        · subst hie
          have ht : s.enqueue_pos = ticket s.dequeue_pos N (s.enqueue_pos % N) :=
            ticket_unique hN0 (Nat.mod_lt _ hN0) hde hlt rfl
          rw [cupd]
          rw [if_pos rfl, ← ht, if_pos (by omega)]
        · have hne : ticket s.dequeue_pos N i ≠ s.enqueue_pos := by
            intro hcon
            exact hie (by rw [← hcon, ticket_mod _ _ _ hN0 hi])
          rw [cupd]
          rw [if_neg hie, hcells i hi]
          rcases Nat.lt_trichotomy (ticket s.dequeue_pos N i) s.enqueue_pos with hc | hc | hc
          · rw [if_pos hc, if_pos (by omega)]
          · exact absurd hc hne
          · rw [if_neg (by omega), if_neg (by omega)]
    · have heq : s.enqueue_pos = s.dequeue_pos + N := by omega
      rw [(enqueue_char N hN s ⟨hde, hed, hcells⟩ d fuel).2 heq] at h
      simp only [Option.some.injEq, Prod.mk.injEq] at h
      obtain ⟨-, h2⟩ := h
      subst h2
      exact ⟨hde, hed, hcells⟩

theorem dequeue_preserves (N : Nat) (hN : 2 ≤ N) {s s1 : BState}
    {r : Option Int} {fuel : Nat} (hInv : Inv N s)
    (h : dequeue N s fuel = some (r, s1)) : Inv N s1 := by
  obtain ⟨hde, hed, hcells⟩ := hInv
  have hN0 : 0 < N := by omega
  cases fuel with
  | zero => exact absurd h (by simp [dequeue, dequeueLoop])
  | succ fuel =>
    rcases Nat.lt_or_ge s.dequeue_pos s.enqueue_pos with hlt | hge
    · rw [(dequeue_char N hN s ⟨hde, hed, hcells⟩ fuel).1 hlt] at h
      simp only [Option.some.injEq, Prod.mk.injEq] at h
      obtain ⟨-, h2⟩ := h
      subst h2
      refine ⟨?_, ?_, fun i hi => ?_⟩ <;> dsimp only
      · omega
      · omega
      · by_cases hid : i = s.dequeue_pos % N
        · subst hid
          have ht : s.dequeue_pos + N = ticket (s.dequeue_pos + 1) N (s.dequeue_pos % N) := by
            refine ticket_unique hN0 (Nat.mod_lt _ hN0) (by omega) (by omega) ?_
            rw [Nat.add_mod_right]
          rw [cupd]
          rw [if_pos rfl, ← ht, if_neg (by omega)]
          show s.dequeue_pos + (N - 1) + 1 = s.dequeue_pos + N
          omega
        · have ht : ticket s.dequeue_pos N i = ticket (s.dequeue_pos + 1) N i := by
            have hmi := ticket_mod s.dequeue_pos N i hN0 hi
            have hne : ticket s.dequeue_pos N i ≠ s.dequeue_pos := by
              intro hcon
              exact hid (by rw [← hmi, hcon])
            refine ticket_unique hN0 hi ?_ ?_ hmi
            · have := ticket_le s.dequeue_pos N i
              omega
            · have := ticket_lt s.dequeue_pos N i hN0
              omega
          rw [cupd]
          rw [if_neg hid, hcells i hi, ht]
    · have heq : s.dequeue_pos = s.enqueue_pos := by omega
      rw [(dequeue_char N hN s ⟨hde, hed, hcells⟩ fuel).2 heq] at h
      simp only [Option.some.injEq, Prod.mk.injEq] at h
      obtain ⟨-, h2⟩ := h
      subst h2
      exact ⟨hde, hed, hcells⟩

theorem reach_inv (N : Nat) (hN : 2 ≤ N) {s : BState} (h : Reach N s) : Inv N s := by
  have hN0 : 0 < N := by omega
  induction h with
  | init =>
    refine ⟨?_, ?_, fun i hi => ?_⟩ <;> dsimp only [freshB]
    · omega
    · omega
    · have ht : ticket 0 N i = i := by
        unfold ticket
        rw [Nat.zero_mod, Nat.sub_zero, Nat.add_mod_right, Nat.mod_eq_of_lt hi, Nat.zero_add]
      rw [ht, if_neg (by omega)]
  | enq hr he ih => exact enqueue_preserves N hN ih he
  | deq hr he ih => exact dequeue_preserves N hN ih he

/-- **C3.** A bounded queue of capacity `N` holding exactly `N` pending items
(`enqueue_pos_ = dequeue_pos_ + N` in any reachable state) rejects the next
enqueue: the call returns false and leaves `enqueue_pos_`, `dequeue_pos_` and
every cell (sequence and data) unchanged — the result state is the argument
state itself. -/
theorem bounded_enqueue_full (N : Nat) (hN : 2 ≤ N) (s : BState) (hs : Reach N s)
    (hfull : s.enqueue_pos = s.dequeue_pos + N) (data : Int) (fuel : Nat) :
    enqueue N s data (fuel + 1) = some (false, s) :=
  (enqueue_char N hN s (reach_inv N hN hs) data fuel).2 hfull

/-- The state of the capacity-2 queue after enqueueing `5`. -/
def s1B : BState :=
  { cells := cupd (freshB 2).cells 0 { sequence := 1, data := 5 },
    enqueue_pos := 1, dequeue_pos := 0 }

/-- The state of the capacity-2 queue after enqueueing `5` then `6`: full. -/
def s2B : BState :=
  { cells := cupd s1B.cells 1 { sequence := 2, data := 6 },
    enqueue_pos := 2, dequeue_pos := 0 }

/-- Witness for C3: the concrete full capacity-2 queue (reached by two
enqueues from the fresh queue) rejects a third enqueue unchanged. -/
theorem bounded_enqueue_full_witness :
    Reach 2 s2B ∧ s2B.enqueue_pos = s2B.dequeue_pos + 2 ∧
      enqueue 2 s2B 7 1 = some (false, s2B) := by
  have h1 : enqueue 2 (freshB 2) 5 1 = some (true, s1B) := rfl
  have h2 : enqueue 2 s1B 6 1 = some (true, s2B) := rfl
  have hr : Reach 2 s2B := Reach.enq (Reach.enq Reach.init h1) h2
  exact ⟨hr, rfl, bounded_enqueue_full 2 (by omega) s2B hr rfl 7 0⟩

/-- A concrete one-element state of the capacity-2 queue: one enqueue of `5`
has completed. -/
def oneB : BState :=
  { cells := fun i => if i = 0 then { sequence := 1, data := 5 } else { sequence := i, data := 0 },
    enqueue_pos := 1, dequeue_pos := 0 }

/-- Witness for C2: the three protocol branches at concrete states of the
capacity-2 queue — a fresh enqueue at ticket 0, a stale enqueue ticket
observing a larger sequence, and the dequeue of the pending item. -/
theorem bounded_cell_protocol_witness :
    (enqueueStep 2 (freshB 2) 5 0 =
      EnqRes.done
        { freshB 2 with
          enqueue_pos := 1,
          cells := cupd (freshB 2).cells 0 { sequence := 1, data := 5 } }) ∧
    (enqueueStep 2 oneB 6 0 = EnqRes.again 1) ∧
    (dequeueStep 2 oneB 0 =
      DeqRes.done 5
        { oneB with
          dequeue_pos := 1,
          cells := cupd oneB.cells 0 { oneB.cells 0 with sequence := 2 } }) := by
  refine ⟨?_, ?_, ?_⟩
  · exact (bounded_cell_protocol 2 (by omega) (freshB 2) 5 0).1 rfl rfl
  · exact (bounded_cell_protocol 2 (by omega) oneB 6 0).2.1 (by decide)
  · have h := (bounded_cell_protocol 2 (by omega) oneB 0 0).2.2 rfl rfl
    simpa using h

end Bounded

/-! # The word-based proxy collector (src/unnamed/part_000) -/

namespace WordProxy

/-- `2 ^ 32`: the modulus of the `unsigned int` words of the collector. -/
def W32 : Nat := 2 ^ 32

/-- One collector: its deferred-free list (`defer_`, newest node first), the
`defer_count_`, and its own reference word `count_`. -/
structure Collector where
  defer : List Nat
  defer_count : Nat
  count : Nat
deriving DecidableEq

/-- Store a collector at index `i` of the array. -/
def colupd (f : Nat → Collector) (i : Nat) (c : Collector) : Nat → Collector :=
  fun j => if j = i then c else f j

/-- State of `proxy<T_defer_limit, T_collector_size>`: the packed `current_`
word (collector index in the low 4 bits, reference count in units of `0x20`
above), the `quiesce_` latch, the proxy-level `defer_` list of the previous
epoch, the collector array (only indices below the collector count are used),
and the log of nodes destroyed by `prv_destroy`. -/
structure PState where
  current : Nat
  quiesce : Bool
  defer : List Nat
  collectors : Nat → Collector
  destroyed : List Nat

/-- `prv_quiesce_complete(c)`: keep the back link — the old proxy-level
`defer_` list is detached for destruction and collector `i`'s deferred list
becomes the new proxy-level `defer_`; `i`'s counters are reset, the
`quiesce_` latch is released, and the detached nodes are destroyed. -/
def prv_quiesce_complete (s : PState) (i : Nat) : PState :=
  let c := s.collectors i
  { s with
    defer := c.defer,
    collectors := colupd s.collectors i { defer := [], defer_count := 0, count := 0 },
    quiesce := false,
    destroyed := s.destroyed ++ s.defer }

/-- `prv_quiesce_begin` for a collector array of size `K`: if the `quiesce_`
latch is free, take it, advance `current_` to the next collector index (the
exchange returns the whole previous word, reference count included), transfer
the packed external reference count into the old collector as internal count
together with the odd bit `0x10`, and finish immediately when the result of
the `fetch_add` shows a drop to zero (`previous == -refs`, in `unsigned`
arithmetic). -/
def prv_quiesce_begin (K : Nat) (s : PState) : PState :=
  if s.quiesce = false then
    let s0 : PState := { s with quiesce := true }
    let oldidx := s.current &&& 0xF
    let old := s.current
    let s1 : PState := { s0 with current := (oldidx + 1) &&& (K - 1) }
    let i := old &&& 0xF
    let c := s1.collectors i
    let refs := old &&& 0xFFFFFFF0
    let c1 : Collector := { c with count := (c.count + (refs + 0x10)) % W32 }
    let s2 : PState := { s1 with collectors := colupd s1.collectors i c1 }
    if c.count = (W32 - refs) % W32 then prv_quiesce_complete s2 i else s2
  else s

/-- `collect()`: attempt to begin a quiescence. -/
def collectQ (K : Nat) (s : PState) : PState := prv_quiesce_begin K s

/-- `collect(c, n)`: a null `n` returns immediately; otherwise link `n` into
collector `i`'s deferred list, bump `defer_count_`, and begin a quiescence
when the new count reaches half the defer limit. -/
def collect (K dlimit : Nat) (s : PState) (i : Nat) (n : Option Nat) : PState :=
  match n with
  | none => s
  | some nd =>
    let c := s.collectors i
    let count := (c.defer_count + 1) % W32
    let c1 : Collector := { c with defer := nd :: c.defer, defer_count := count }
    let s1 : PState := { s with collectors := colupd s.collectors i c1 }
    if count ≥ dlimit / 2 then prv_quiesce_begin K s1 else s1

/-- `acquire`: `fetch_add(0x20)` on `current_` and return (the index of) the
collector found in the low 4 bits of the previous word. -/
def acquire (s : PState) : Nat × PState :=
  (s.current &&& 0xF, { s with current := (s.current + 0x20) % W32 })

/-- The `fetch_sub(0x20)` of `release`: one reference unit comes off the
collector's own `count_` (in wrapping `unsigned` arithmetic). -/
def releaseSub (s : PState) (i : Nat) : PState :=
  let c := s.collectors i
  let c1 : Collector := { c with count := (c.count + (W32 - 0x20)) % W32 }
  { s with collectors := colupd s.collectors i c1 }

/-- `release`: decrement the collector's count; when the value returned by the
`fetch_sub` (the previous count) has the signature `0x30` in its bits above
the low nibble, the quiescence has completed and the final reclamation
`prv_quiesce_complete` runs.  The Boolean reports whether it ran. -/
def release (s : PState) (i : Nat) : PState × Bool :=
  let count := (s.collectors i).count
  let s1 := releaseSub s i
  if count &&& 0xFFFFFFF0 = 0x30 then (prv_quiesce_complete s1 i, true) else (s1, false)

theorem and_hi_mask (x : Nat) : x &&& 0xFFFFFFF0 = (x >>> 4 % 2 ^ 28) <<< 4 := by
  have h0 : (0xFFFFFFF0 : Nat) = (2 ^ 28 - 1) <<< 4 := by norm_num [Nat.shiftLeft_eq]
  apply Nat.eq_of_testBit_eq
  intro i
  rw [Nat.testBit_land, h0, Nat.testBit_shiftLeft, Nat.testBit_shiftLeft,
    Nat.testBit_mod_two_pow, Nat.testBit_two_pow_sub_one]
  by_cases h4 : 4 ≤ i
  · have h44 : 4 + (i - 4) = i := by omega
    rw [Nat.testBit_shiftRight, h44]
    by_cases h32 : i - 4 < 28 <;> simp [h4, h32, Bool.and_comm]
  · simp [h4]

theorem and_hi_mask_div (x : Nat) (hx : x < 2 ^ 32) : x &&& 0xFFFFFFF0 = 16 * (x / 16) := by
  rw [and_hi_mask]
  have h1 : x >>> 4 = x / 16 := by
    rw [Nat.shiftRight_eq_div_pow]
  have h2 : x / 16 < 2 ^ 28 := by omega
  rw [h1, Nat.mod_eq_of_lt h2, Nat.shiftLeft_eq]
  norm_num [Nat.mul_comm]

/-- The completion test of `release`, read on the decremented count: the
previous count has `0x30` above the low nibble exactly when the count after
removing one reference unit has the completed-quiescence signature — the odd
bit `0x10` and no remaining external reference. -/
theorem release_sig (count : Nat) (hc : count < W32) :
    (count &&& 0xFFFFFFF0 = 0x30) ↔
      (((count + (W32 - 0x20)) % W32) &&& 0xFFFFFFF0 = 0x10) := by
  have hW : W32 = 4294967296 := by norm_num [W32]
  have hc32 : count < 2 ^ 32 := by omega
  have hp32 : (count + (W32 - 0x20)) % W32 < 2 ^ 32 := by
    rw [hW]
    omega
  rw [and_hi_mask_div count hc32, and_hi_mask_div _ hp32, hW]
  omega

/-- **C4.** In the word-based proxy collector, `acquire` adds exactly one
reference unit `0x20` to the packed `current_` word and returns the collector
indexed by the low 4 bits of the pre-increment value; `release` subtracts
exactly one reference unit from that collector's own `count_`, and it performs
final reclamation (`prv_quiesce_complete`) if and only if the count after the
decrement carries the completed-quiescence signature: one odd bit `0x10` and
zero remaining external references above the low nibble. -/
theorem word_proxy_acquire_release (s : PState) (i : Nat)
    (hcnt : (s.collectors i).count < W32) :
    ((acquire s).2.current = (s.current + 0x20) % W32 ∧
      (acquire s).1 = s.current &&& 0xF) ∧
    (((releaseSub s i).collectors i).count =
        ((s.collectors i).count + (W32 - 0x20)) % W32 ∧
      (release s i).1 = (if (s.collectors i).count &&& 0xFFFFFFF0 = 0x30
        then prv_quiesce_complete (releaseSub s i) i else releaseSub s i) ∧
      ((release s i).2 = true ↔
        (((s.collectors i).count + (W32 - 0x20)) % W32) &&& 0xFFFFFFF0 = 0x10)) := by
  refine ⟨⟨rfl, rfl⟩, ?_, ?_, ?_⟩
  · simp [releaseSub, colupd]
  · rw [release]
    by_cases h : (s.collectors i).count &&& 0xFFFFFFF0 = 0x30 <;> simp [h]
  · rw [release]
    by_cases h : (s.collectors i).count &&& 0xFFFFFFF0 = 0x30 <;>
      simp [h, ← release_sig _ hcnt]

/-- A concrete collector state: collector `0` holds count `0x30` — one odd bit
and one external reference — so the next release completes the quiescence. -/
def exP : PState :=
  { current := 0x47, quiesce := false, defer := [],
    collectors := fun _ => { defer := [], defer_count := 0, count := 0x30 },
    destroyed := [] }

/-- Witness for C4 at the concrete state `exP`: `acquire` bumps the packed
word from `0x47` to `0x67` and returns collector `7`; `release` on collector
`0` drops its count from `0x30` to `0x10`, which carries the signature, so
reclamation runs. -/
theorem word_proxy_acquire_release_witness :
    ((acquire exP).2.current = 0x67 ∧ (acquire exP).1 = 7) ∧
    (((releaseSub exP 0).collectors 0).count = 0x10 ∧ (release exP 0).2 = true) := by
  have h := word_proxy_acquire_release exP 0 (by norm_num [exP, W32])
  refine ⟨⟨?_, ?_⟩, ?_, ?_⟩
  · rw [h.1.1]
    norm_num [exP, W32]
  · rw [h.1.2]
    rfl
  · rw [h.2.1]
    norm_num [exP, W32]
  · rw [h.2.2.2]
    decide

/-- **C10.** `collect(c, n)` with a null `n` returns immediately and changes
nothing at all: the result is the argument state, so the collector's deferred
list and defer counter, its reference count, the global `current_` and
`quiesce_` words, and the destruction log are all unchanged, and no quiescence
is begun. -/
theorem collect_null_noop (K dlimit : Nat) (s : PState) (i : Nat) :
    collect K dlimit s i none = s := rfl

end WordProxy

/-! # The sequence-based proxy collector (proxy_collector.h, class `proxy`) -/

namespace SeqProxy

/-- `GUARD` bit of a collector count. -/
def GUARD : Int := 1

/-- `REFERENCE` unit of a collector count. -/
def REFERENCE : Int := 2

/-- `sequence_collector`: a `(sequence, collector*)` pair; the pointer is a
collector id with `0` = null. -/
structure SeqCol where
  sequence : Int
  c : Nat
deriving DecidableEq

/-- One `collector`: `count_` (a `sequence_type`, that is `int` — modelled on
unbounded `Int`, the counts of every claim staying far below `2^31`), the
`next_` pair, and the deferred callback `defer_free` (a callback id, `none` =
null). -/
structure Collector where
  count : Int
  next : SeqCol
  defer_free : Option Nat
deriving DecidableEq

/-- Store a collector at id `i` of the heap. -/
def colupd (f : Nat → Collector) (i : Nat) (c : Collector) : Nat → Collector :=
  fun j => if j = i then c else f j

/-- State of the sequence-based `proxy`, instrumented: the heap of collectors
(ids from `1`; `0` is null), the `tail_`, `free_head_` and `free_tail_`
pairs, the next fresh id, the log of every store to a `defer_free` field
(collector id, stored value; oldest first), and the log of callback
invocations (collector id the callback was found on, callback id). -/
structure PState where
  heap : Nat → Collector
  tail : SeqCol
  free_head : SeqCol
  free_tail : SeqCol
  fresh : Nat
  stores : List (Nat × Option Nat)
  invoked : List (Nat × Nat)

/-- `alloc_collector(alloc)` in a single-threaded run: when the free list is
non-empty (`free_head_.c_ != free_tail_.c_`) its head is popped by the
(uncontended, hence successful) CAS — the new head is the old head's `next_`
collector with the sequence bumped by `GUARD` — and the popped collector is
`reset()`.  Otherwise, when `alloc` is set, a fresh collector is constructed.
Returns the collector id (`0` when neither path produced one). -/
def alloc_collector (s : PState) (alloc : Bool) : Nat × PState :=
  let old_free := s.free_head
  if old_free.c ≠ s.free_tail.c then
    let new_free : SeqCol :=
      { sequence := old_free.sequence + GUARD, c := (s.heap old_free.c).next.c }
    let cid := old_free.c
    let creset : Collector := { count := 0, next := ⟨0, 0⟩, defer_free := none }
    (cid, { s with
            free_head := new_free,
            heap := colupd s.heap cid creset,
            stores := s.stores ++ [(cid, none)] })
  else if alloc then
    let cnew : Collector := { count := 0, next := ⟨0, 0⟩, defer_free := none }
    (s.fresh, { s with heap := colupd s.heap s.fresh cnew, fresh := s.fresh + 1 })
  else (0, s)

/-- The loop of `release_adjust`, with the running `current` collector and
`adjusted_count`.  The C++ loop condition
`count_.load() == adjusted_count || count_.fetch_sub(adjusted_count) ==
adjusted_count` short-circuits: when the load already sees `adjusted_count`
the body is entered with no subtraction; otherwise the count is decremented
and the body is entered only if the value the `fetch_sub` returned was
`adjusted_count` (impossible single-threadedly, the load having just differed).
The body advances `free_tail_` by one link (uncontended CAS), moves to the
`next` collector, runs and clears the deferred callback found there, and
repeats with `adjusted_count = REFERENCE`. -/
def release_adjust_loop : Nat → PState → Nat → Int → PState
  | 0, s, _, _ => s
  | fuel + 1, s, current, adjusted_count =>
    let cnt := (s.heap current).count
    let r : Bool × PState :=
      if cnt = adjusted_count then (true, s)
      else
        let cdec : Collector := { s.heap current with count := cnt - adjusted_count }
        (decide (cnt = adjusted_count), { s with heap := colupd s.heap current cdec })
    if r.1 then
      let s1 := r.2
      let next := (s1.heap current).next.c
      let ft_next := (s1.heap s1.free_tail.c).next
      let s2 : PState := { s1 with free_tail := ft_next }
      match (s2.heap next).defer_free with
      | some f =>
        let ccl : Collector := { s2.heap next with defer_free := none }
        let s3 : PState :=
          { s2 with
            heap := colupd s2.heap next ccl,
            invoked := s2.invoked ++ [(next, f)],
            stores := s2.stores ++ [(next, none)] }
        release_adjust_loop fuel s3 next REFERENCE
      | none => release_adjust_loop fuel s2 next REFERENCE
    else r.2

/-- `release_adjust(c, adjust)`: run the loop with the initial
`adjusted_count = REFERENCE - adjust`. -/
def release_adjust (fuel : Nat) (s : PState) (cid : Nat) (adjust : Int) : PState :=
  release_adjust_loop fuel s cid (REFERENCE - adjust)

/-- The installation phase of `defer_recycle(fn)`, everything before the final
`release_adjust`: allocate (or reuse) a collector `c`, set
`c->count_ = GUARD + 2 * REFERENCE`, store the callback `fn` on `c`, install
`c` as the new tail by the (uncontended) CAS on `tail_`, and link the old
tail's `next_` to `c`.  Returns the state, the id of `c`, and the old tail
pair. -/
def defer_recycle_install (s : PState) (fn : Nat) : PState × Nat × SeqCol :=
  let r := alloc_collector s true
  let c := r.1
  let s1 := r.2
  let ccnt : Collector := { s1.heap c with count := GUARD + 2 * REFERENCE }
  let s2 : PState := { s1 with heap := colupd s1.heap c ccnt }
  let cfn : Collector := { s2.heap c with defer_free := some fn }
  let s3 : PState :=
    { s2 with heap := colupd s2.heap c cfn, stores := s2.stores ++ [(c, some fn)] }
  let new_tail : SeqCol := { sequence := 0, c := c }
  let old_tail := s3.tail
  let s4 : PState := { s3 with tail := new_tail }
  let clink : Collector := { s4.heap old_tail.c with next := ⟨0, c⟩ }
  let s5 : PState := { s4 with heap := colupd s4.heap old_tail.c clink }
  (s5, c, old_tail)

/-- `defer_recycle(fn)`: the installation phase followed by
`release_adjust(old_tail.c_, old_tail.sequence_ - GUARD)`.  Returns the final
state, the id of the newly installed collector, and the id of the previous
tail. -/
def defer_recycle (fuel : Nat) (s : PState) (fn : Nat) : PState × Nat × Nat :=
  let r := defer_recycle_install s fn
  (release_adjust fuel r.1 r.2.2.c (r.2.2.sequence - GUARD), r.2.1, r.2.2.c)

/-- The freshly constructed proxy: one collector (id `1`) with count
`GUARD + REFERENCE`, and `tail_`, `free_head_`, `free_tail_` all pointing at
it with sequence `0`. -/
def freshP : PState :=
  { heap := fun j =>
      if j = 1 then { count := GUARD + REFERENCE, next := ⟨0, 0⟩, defer_free := none }
      else { count := 0, next := ⟨0, 0⟩, defer_free := none },
    tail := ⟨0, 1⟩, free_head := ⟨0, 1⟩, free_tail := ⟨0, 1⟩,
    fresh := 2, stores := [], invoked := [] }

/-- Counterexample to **C5** as stated: on the fresh proxy,
`defer_recycle fn` does take a fresh collector (id `2`) and install it as the
new tail — but the deferred callback is stored on that newly installed
collector, and never on the previous tail (id `1`).  The complete store log of
the call is `[(2, some fn), (2, none)]`: the store of `fn` on collector `2`,
then the clearing of the slot when the callback runs (immediately here, no
reader pinning the previous tail); no store ever touches collector `1`. -/
theorem defer_recycle_stores_on_new_cex :
    (defer_recycle 3 freshP 0).2 = (2, 1) ∧
    (defer_recycle 3 freshP 0).1.tail = ⟨0, 2⟩ ∧
    (defer_recycle 3 freshP 0).1.stores = [(2, some 0), (2, none)] ∧
    ¬((1, some 0) ∈ (defer_recycle 3 freshP 0).1.stores) ∧
    (defer_recycle 3 freshP 0).1.invoked = [(2, 0)] := by
  refine ⟨rfl, rfl, rfl, by decide, rfl⟩

/-- **C5, amended.**  `defer_recycle(fn)` allocates (or reuses from the free
list) a collector, installs it as the new tail of the collector list, and
stores the deferred callback `fn` on that newly installed collector — not on
the previous tail, whose `defer_free` slot the installation leaves untouched;
the call then adjusts the previous tail's count with
`release_adjust(prev, prev_sequence - GUARD)`, which runs the stored callback
once the previous collector's count drains (possibly within the same call,
when no reader holds a reference).  Stated of the installation phase, for any
state in which the allocated collector is distinct from the current tail. -/
theorem defer_recycle_installs_on_new (s : PState) (fn : Nat) (fuel : Nat)
    (hne : (alloc_collector s true).1 ≠ s.tail.c) :
    ((defer_recycle_install s fn).1.heap (defer_recycle_install s fn).2.1).defer_free
        = some fn ∧
    (defer_recycle_install s fn).2.1 = (alloc_collector s true).1 ∧
    (defer_recycle_install s fn).2.2 = s.tail ∧
    (defer_recycle_install s fn).1.tail = ⟨0, (defer_recycle_install s fn).2.1⟩ ∧
    ((defer_recycle_install s fn).1.heap s.tail.c).defer_free
        = ((alloc_collector s true).2.heap s.tail.c).defer_free ∧
    (defer_recycle_install s fn).1.stores
        = (alloc_collector s true).2.stores ++ [((alloc_collector s true).1, some fn)] ∧
    defer_recycle fuel s fn =
      (release_adjust fuel (defer_recycle_install s fn).1 s.tail.c
          (s.tail.sequence - GUARD),
        (defer_recycle_install s fn).2.1, s.tail.c) := by
  have halloc : ((alloc_collector s true).2).tail = s.tail := by
    rw [alloc_collector]
    by_cases h : s.free_head.c ≠ s.free_tail.c <;> simp [h]
  have hne' : s.tail.c ≠ (alloc_collector s true).1 := Ne.symm hne
  have h3 : (defer_recycle_install s fn).2.2 = s.tail := by
    simp only [defer_recycle_install]
    exact halloc
  refine ⟨?_, rfl, h3, rfl, ?_, rfl, ?_⟩
  · simp only [defer_recycle_install, colupd, halloc]
    simp [hne]
  · simp only [defer_recycle_install, colupd, halloc]
    simp [hne, hne']
  · rw [defer_recycle, h3]

/-- Witness for the amended C5: on the fresh proxy the installation puts the
callback on the newly installed collector, which becomes the tail. -/
theorem defer_recycle_installs_on_new_witness :
    ((defer_recycle_install freshP 0).1.heap
        (defer_recycle_install freshP 0).2.1).defer_free = some 0 ∧
    (defer_recycle_install freshP 0).1.tail = ⟨0, (defer_recycle_install freshP 0).2.1⟩ :=
  ⟨(defer_recycle_installs_on_new freshP 0 3 (by decide)).1,
    (defer_recycle_installs_on_new freshP 0 3 (by decide)).2.2.2.1⟩

end SeqProxy

/-! # The event-count (eventcount.h) -/

namespace Ec

/-- Joint state of one producer P — who performs the state update
(`pred := true`) and then `notify()` — and one consumer C running
`await(pred)`, over the shared `waiting` flag and the counting semaphore, in
the sequentially-consistent interleaving model (one transition per atomic
access of the source).

Consumer program counter (`await`):
`0` evaluate `pred`; `1` `prepare_wait` (seq-cst store `waiting := true`);
`2` re-evaluate `pred`; `3` `cancel_wait` (store `waiting := false`) and
return; `4` `commit_wait` (`sem_wait`: enabled only when `sem > 0`,
decrements it); `5` evaluate `pred` after waking; `6` done.

Producer program counter:
`0` the state update `pred := true`; `1` `notify`'s load of `waiting`
(branch); `2` `notify`'s store `waiting := false`; `3` `sem_post`; `4` done. -/
structure EcState where
  cpc : Fin 7
  ppc : Fin 5
  pred : Bool
  waiting : Bool
  sem : Fin 3
deriving DecidableEq

/-- All successor states of an interleaved execution: every enabled atomic
step of either thread. -/
def step (s : EcState) : List EcState :=
  (match s.cpc.val with
    | 0 => if s.pred then [{ s with cpc := 6 }] else [{ s with cpc := 1 }]
    | 1 => [{ s with cpc := 2, waiting := true }]
    | 2 => if s.pred then [{ s with cpc := 3 }] else [{ s with cpc := 4 }]
    | 3 => [{ s with cpc := 6, waiting := false }]
    | 4 =>
      if 0 < s.sem.val then
        [{ s with cpc := 5, sem := ⟨s.sem.val - 1, by have := s.sem.isLt; omega⟩ }]
      else []
    | 5 => if s.pred then [{ s with cpc := 6 }] else [{ s with cpc := 1 }]
    | _ => []) ++
  (match s.ppc.val with
    | 0 => [{ s with ppc := 1, pred := true }]
    | 1 => if s.waiting then [{ s with ppc := 2 }] else [{ s with ppc := 4 }]
    | 2 => [{ s with ppc := 3, waiting := false }]
    | 3 => [{ s with ppc := 4, sem := ⟨(s.sem.val + 1) % 3, by omega⟩ }]
    | _ => [])

/-- The initial state: predicate false, no waiter flagged, semaphore empty,
both threads at their first step. -/
def ecInit : EcState := { cpc := 0, ppc := 0, pred := false, waiting := false, sem := 0 }

/-- The inductive invariant, as a decidable check: the predicate records
whether the producer's update happened; the semaphore never exceeds one token
and only holds one after the producer posted and finished; a consumer that
has passed `prepare_wait` and not yet cancelled keeps the `waiting` flag set
while the producer has not read it; and a parked consumer with a finished
producer owns a token. -/
def ecInv (s : EcState) : Bool :=
  decide ((s.pred = true ↔ s.ppc.val ≠ 0) ∧
    s.sem.val ≤ 1 ∧
    (s.sem.val = 1 → s.ppc.val = 4) ∧
    ((s.cpc.val = 2 ∨ s.cpc.val = 4) → s.ppc.val ≤ 1 → s.waiting = true) ∧
    (s.cpc.val = 4 → s.ppc.val = 4 → s.sem.val = 1))

/-- Every state of the finite machine. -/
def allStates : List EcState :=
  (List.finRange 7).flatMap fun a =>
    (List.finRange 5).flatMap fun b =>
      [false, true].flatMap fun p =>
        [false, true].flatMap fun w =>
          (List.finRange 3).map fun m => ⟨a, b, p, w, m⟩

theorem mem_allStates (s : EcState) : s ∈ allStates := by
  obtain ⟨a, b, p, w, m⟩ := s
  rw [allStates, List.mem_flatMap]
  refine ⟨a, List.mem_finRange a, ?_⟩
  rw [List.mem_flatMap]
  refine ⟨b, List.mem_finRange b, ?_⟩
  rw [List.mem_flatMap]
  refine ⟨p, by cases p <;> simp, ?_⟩
  rw [List.mem_flatMap]
  refine ⟨w, by cases w <;> simp, ?_⟩
  rw [List.mem_map]
  exact ⟨m, List.mem_finRange m, rfl⟩

set_option maxRecDepth 100000 in
theorem ecInv_check :
    (allStates.all fun s => !(ecInv s) || (step s).all ecInv) = true := rfl

theorem ecInv_init : ecInv ecInit = true := rfl

theorem ecInv_step (s : EcState) (hs : ecInv s = true) :
    ∀ s' ∈ step s, ecInv s' = true := by
  intro s' hs'
  have hall := List.all_eq_true.mp ecInv_check s (mem_allStates s)
  rw [hs, Bool.not_true, Bool.false_or, List.all_eq_true] at hall
  exact hall s' hs'

/-- Reachability from the initial state by interleaved atomic steps. -/
def EcReach (s : EcState) : Prop :=
  Relation.ReflTransGen (fun a b => b ∈ step a) ecInit s

theorem ecReach_inv (s : EcState) (h : EcReach s) : ecInv s = true := by
  induction h with
  | refl => exact ecInv_init
  | tail h1 h2 ih => exact ecInv_step _ ih _ h2

/-- **C9.** No lost wake-up, on the sequentially-consistent interleaving model
of the event-count: in every reachable state in which the consumer is parked
in `commit_wait` and the producer has completed its update-then-notify, the
semaphore holds a token and the predicate is already true — so the consumer's
`sem_wait` is enabled, it wakes, re-evaluates `pred` to true and returns.  No
interleaving of `prepare_wait`, the predicate re-check, `commit_wait` and
`notify` leaves the consumer blocked forever. -/
theorem eventcount_no_lost_wakeup (s : EcState) (h : EcReach s)
    (hc : s.cpc.val = 4) (hp : s.ppc.val = 4) : 0 < s.sem.val ∧ s.pred = true := by
  have hinv := ecReach_inv s h
  rw [ecInv, decide_eq_true_eq] at hinv
  obtain ⟨h1, h2, h3, h4, h5⟩ := hinv
  refine ⟨by rw [h5 hc hp]; omega, h1.mpr (by omega)⟩

/-- Witness for C9: a concrete interleaving — the consumer sees the predicate
false, prepares, re-checks, parks; the producer then updates, reads the
`waiting` flag, clears it and posts — ending parked-with-token, where the
theorem applies. -/
theorem eventcount_no_lost_wakeup_witness :
    0 < (⟨4, 4, true, false, 1⟩ : EcState).sem.val ∧
      (⟨4, 4, true, false, 1⟩ : EcState).pred = true := by
  have r1 : EcReach ⟨1, 0, false, false, 0⟩ :=
    Relation.ReflTransGen.tail Relation.ReflTransGen.refl (by decide)
  have r2 : EcReach ⟨2, 0, false, true, 0⟩ :=
    Relation.ReflTransGen.tail r1 (by decide)
  have r3 : EcReach ⟨4, 0, false, true, 0⟩ :=
    Relation.ReflTransGen.tail r2 (by decide)
  have r4 : EcReach ⟨4, 1, true, true, 0⟩ :=
    Relation.ReflTransGen.tail r3 (by decide)
  have r5 : EcReach ⟨4, 2, true, true, 0⟩ :=
    Relation.ReflTransGen.tail r4 (by decide)
  have r6 : EcReach ⟨4, 3, true, false, 0⟩ :=
    Relation.ReflTransGen.tail r5 (by decide)
  have r7 : EcReach ⟨4, 4, true, false, 1⟩ :=
    Relation.ReflTransGen.tail r6 (by decide)
  exact eventcount_no_lost_wakeup _ r7 rfl rfl

end Ec
